import Mathlib

/-!
# Verification of the commodity (unique-asset) pallet

Shallow embedding of `src/pallets/template/src/lib.rs` (the `Commodity`
pallet implementing the `UniqueAssets` trait) and proofs about it.

Modelling choices:

* `AccountId`, `CommodityInfo` and `CommodityId` are instantiated at `Nat`.
  The null/default sentinel (`T::AccountId::default()`,
  `T::CommodityInfo::default()`) is `0`; the `Ord` instance on
  `CommodityInfo` is the order on `Nat`; the derived tuple order on
  `(CommodityId, CommodityInfo)` is the lexicographic order, as in Rust.
* The runtime hashing algorithm (`T::Hashing::hash_of`) is an injected
  capability; operations that need it take an arbitrary function
  `h : Info → CommodityId` as a parameter.
* Substrate storage maps (`TotalForAccount`, `CommoditiesForAccount`,
  `AccountForCommodity`) are embedded as association lists with a default
  value for absent keys, which keeps the distinction between
  `contains_key` (key present) and a stored value that happens to equal
  the default — the pallet relies on that distinction.
* Counters are `Nat`.  The `u128`/`u64` increments in `mint` are guarded
  by `total < CommodityLimit` and `total_for_account < UserCommodityLimit`
  (both limits are machine integers), so they cannot wrap; the decrements
  in `burn`/`transfer` are shown to act on positive values in every state
  satisfying the registry invariant.  The lifetime `burned` counter's
  distant wrap horizon is governed by the build profile, which is not part
  of the embedded source, and is not modelled.
* `ensure!` early-returns leave storage untouched, and in each operation
  every `ensure!` precedes every storage mutation, so a failing operation
  is embedded as an error outcome carrying no state.  The
  `.expect(..)`/`panic` in `burn`/`transfer` aborts the whole extrinsic
  (no storage is committed), embedded as the distinct outcome
  `Outcome.panic`.
* `Vec::binary_search` on the sorted per-account vectors is embedded by a
  scan realising its documented contract on sorted input: `Ok pos` with
  the element at `pos` equal to the probe, or `Err pos` with `pos` the
  insertion point keeping the vector sorted.
-/

namespace CommodityPallet

/-- Account identifiers; `0` is the null/default sentinel (`AccountId::default()`). -/
abbrev AccountId := Nat

/-- The descriptive payload `T::CommodityInfo`; `0` is `CommodityInfo::default()`. -/
abbrev Info := Nat

/-- Commodity identifiers (`T::Hash` digests). -/
abbrev CommodityId := Nat

/-- A stored commodity: `(CommodityId, CommodityInfo)`, as in `type Commodity<T, I>`. -/
abbrev Commodity := CommodityId × Info

/-- Storage-map read with default, mirroring a Substrate `StorageMap` getter. -/
def mget {β : Type} (d : β) : List (Nat × β) → Nat → β
  | [], _ => d
  | (k', v) :: rest, k => if k' = k then v else mget d rest k

/-- Storage-map write (`insert` / `mutate`): replaces the binding for `k` or appends one. -/
def mput {β : Type} : List (Nat × β) → Nat → β → List (Nat × β)
  | [], k, v => [(k, v)]
  | (k', v') :: rest, k, v =>
      if k' = k then (k, v) :: rest else (k', v') :: mput rest k v

/-- Storage-map removal (`remove`). -/
def mdel {β : Type} : List (Nat × β) → Nat → List (Nat × β)
  | [], _ => []
  | (k', v') :: rest, k => if k' = k then mdel rest k else (k', v') :: mdel rest k

/-- Storage-map key-presence test (`contains_key`). -/
def mhas {β : Type} : List (Nat × β) → Nat → Bool
  | [], _ => false
  | (k', _) :: rest, k => k' = k || mhas rest k

/-- Sum of the stored values of a `Nat`-valued storage map. -/
def sumVals : List (Nat × Nat) → Nat
  | [] => 0
  | (_, v) :: rest => v + sumVals rest

/-- The derived (lexicographic) `Ord` on `(CommodityId, CommodityInfo)` tuples,
as a strict `<` test — the order `Vec::binary_search` probes with. -/
def lexLt (a b : Commodity) : Bool :=
  decide (a.1 < b.1) || (decide (a.1 = b.1) && decide (a.2 < b.2))

/-- `Vec::binary_search` on a sorted vector: `.inl pos` when the element at
`pos` equals the probe, `.inr pos` when absent with `pos` the sorted insertion
point.  Embedded as a scan realising that contract. -/
def bsr : List Commodity → Commodity → Sum Nat Nat
  | [], _ => .inr 0
  | x :: xs, t =>
      if lexLt t x then .inr 0
      else if t = x then .inl 0
      else
        match bsr xs t with
        | .inl p => .inl (p + 1)
        | .inr p => .inr (p + 1)

/-- `Vec::insert(pos, x)`. -/
def insAt {α : Type} : List α → Nat → α → List α
  | l, 0, x => x :: l
  | [], _ + 1, x => [x]
  | y :: ys, p + 1, x => y :: insAt ys p x

/-- `Vec::remove(pos)` (the remaining vector). -/
def rmAt {α : Type} : List α → Nat → List α
  | [], _ => []
  | _ :: ys, 0 => ys
  | y :: ys, p + 1 => y :: rmAt ys p

/-- Element at index `p`, with default `d` out of range (the value
`Vec::remove(pos)` returns when `pos` is in range). -/
def nthD {α : Type} (d : α) : List α → Nat → α
  | [], _ => d
  | x :: _, 0 => x
  | _ :: xs, p + 1 => nthD d xs p

/-- The `CommoditiesForAccount` mutation body shared by `mint` and `transfer`:
insert at the `binary_search` insertion point, duplicate-guarded. -/
def insertOwned (owned : List Commodity) (x : Commodity) : List Commodity :=
  match bsr owned x with
  | .inl _ => owned
  | .inr pos => insAt owned pos x

/-- Plain ordered insertion into a sorted list (the specification's
"insert at its sorted position"). -/
def insSorted : List Commodity → Commodity → List Commodity
  | [], t => [t]
  | x :: xs, t => if lexLt t x then t :: x :: xs else x :: insSorted xs t

/-- The pallet's five storage items (`decl_storage!`). -/
structure RegState where
  total : Nat
  burned : Nat
  tfa : List (AccountId × Nat)
  cfa : List (AccountId × List Commodity)
  afc : List (CommodityId × AccountId)
deriving Repr, DecidableEq

/-- The two configured ceilings `T::UserCommodityLimit` / `T::CommodityLimit`. -/
structure Config where
  userLimit : Nat
  commodityLimit : Nat
deriving Repr, DecidableEq

/-- The pallet's `decl_error!` variants. -/
inductive Err where
  | CommodityExists
  | NonexistentCommodity
  | NotCommodityOwner
  | TooManyCommodities
  | TooManyCommoditiesForAccount
deriving Repr, DecidableEq

/-- Result of an operation: success, a returned `DispatchError`, or a runtime
panic (`expect` failure), which aborts the extrinsic without committing state. -/
inductive Outcome (α : Type) where
  | ok (a : α)
  | err (e : Err)
  | panic
deriving Repr, DecidableEq

/-- Genesis storage: all counters zero, all maps empty. -/
def emptyState : RegState :=
  { total := 0, burned := 0, tfa := [], cfa := [], afc := [] }

/-- The storage state after a successful `mint` (all five writes of the
success path, in source order). -/
def mintState (h : Info → CommodityId) (s : RegState) (owner : AccountId)
    (info : Info) : RegState :=
  { total := s.total + 1
    burned := s.burned
    tfa := mput s.tfa owner (mget 0 s.tfa owner + 1)
    cfa := mput s.cfa owner (insertOwned (mget [] s.cfa owner) (h info, info))
    afc := mput s.afc (h info) owner }

/-- `UniqueAssets::mint`: derive the id, run the three `ensure!` checks in
source order, then apply the success writes. -/
def mint (c : Config) (h : Info → CommodityId) (s : RegState)
    (owner : AccountId) (info : Info) : Outcome (RegState × CommodityId) :=
  if mhas s.afc (h info) then .err .CommodityExists
  else if mget 0 s.tfa owner < c.userLimit then
    if s.total < c.commodityLimit then .ok (mintState h s owner info, h info)
    else .err .TooManyCommodities
  else .err .TooManyCommoditiesForAccount

/-- The storage state after a successful `burn` that removed position `pos`
of the owner's vector. -/
def burnState (s : RegState) (cid : CommodityId) (pos : Nat) : RegState :=
  { total := s.total - 1
    burned := s.burned + 1
    tfa := mput s.tfa (mget 0 s.afc cid) (mget 0 s.tfa (mget 0 s.afc cid) - 1)
    cfa := mput s.cfa (mget 0 s.afc cid) (rmAt (mget [] s.cfa (mget 0 s.afc cid)) pos)
    afc := mdel s.afc cid }

/-- `UniqueAssets::burn`: existence check against the default-account
sentinel, then `binary_search` for `(id, CommodityInfo::default())` in the
owner's vector — `Err` hits the `expect` and panics. -/
def burn (s : RegState) (cid : CommodityId) : Outcome RegState :=
  if mget 0 s.afc cid = 0 then .err .NonexistentCommodity
  else
    match bsr (mget [] s.cfa (mget 0 s.afc cid)) (cid, 0) with
    | .inl pos => .ok (burnState s cid pos)
    | .inr _ => .panic

/-- The storage state after a successful `transfer` that removed position
`pos` of the owner's vector.  `moved` is the element `Vec::remove` returned,
which is what gets inserted into the destination's vector. -/
def transferState (s : RegState) (dest : AccountId) (cid : CommodityId)
    (pos : Nat) : RegState :=
  let owner := mget 0 s.afc cid
  let owned := mget [] s.cfa owner
  let moved := nthD (cid, 0) owned pos
  let tfa1 := mput s.tfa owner (mget 0 s.tfa owner - 1)
  let cfa1 := mput s.cfa owner (rmAt owned pos)
  { total := s.total
    burned := s.burned
    tfa := mput tfa1 dest (mget 0 tfa1 dest + 1)
    cfa := mput cfa1 dest (insertOwned (mget [] cfa1 dest) moved)
    afc := mput s.afc cid dest }

/-- `UniqueAssets::transfer`: existence check, destination capacity check,
then `binary_search` for `(id, CommodityInfo::default())` in the owner's
vector — `Err` hits the `expect` and panics. -/
def transfer (c : Config) (s : RegState) (dest : AccountId)
    (cid : CommodityId) : Outcome RegState :=
  if mget 0 s.afc cid = 0 then .err .NonexistentCommodity
  else if mget 0 s.tfa dest < c.userLimit then
    match bsr (mget [] s.cfa (mget 0 s.afc cid)) (cid, 0) with
    | .inl pos => .ok (transferState s dest cid pos)
    | .inr _ => .panic
  else .err .TooManyCommoditiesForAccount

/-- The `burn` dispatchable (`decl_module!`): a signed caller `who` must equal
`account_for_commodity(id)` (the sentinel for absent entries) before the
registry's `burn` runs. -/
def dispatchBurn (s : RegState) (who : AccountId) (cid : CommodityId) :
    Outcome RegState :=
  if who = mget 0 s.afc cid then burn s cid else .err .NotCommodityOwner

/-- The `transfer` dispatchable: same caller-equals-recorded-owner check
before the registry's `transfer` runs. -/
def dispatchTransfer (c : Config) (s : RegState) (who dest : AccountId)
    (cid : CommodityId) : Outcome RegState :=
  if who = mget 0 s.afc cid then transfer c s dest cid
  else .err .NotCommodityOwner

/-- One registry operation. -/
inductive Op where
  | mintOp (owner : AccountId) (info : Info)
  | burnOp (cid : CommodityId)
  | transferOp (dest : AccountId) (cid : CommodityId)
deriving Repr, DecidableEq

/-- Apply one operation; an error or panic commits no storage change. -/
def exec (c : Config) (h : Info → CommodityId) (s : RegState) : Op → RegState
  | .mintOp owner info =>
      match mint c h s owner info with
      | .ok (s', _) => s'
      | _ => s
  | .burnOp cid =>
      match burn s cid with
      | .ok s' => s'
      | _ => s
  | .transferOp dest cid =>
      match transfer c s dest cid with
      | .ok s' => s'
      | _ => s

/-- Run a sequence of operations from a given state. -/
def runFrom (c : Config) (h : Info → CommodityId) (s : RegState)
    (ops : List Op) : RegState :=
  ops.foldl (exec c h) s

/-- Run a sequence of operations from the empty registry. -/
def runOps (c : Config) (h : Info → CommodityId) (ops : List Op) : RegState :=
  runFrom c h emptyState ops

/-- Strictly sorted in the derived tuple order — the shape the per-account
vectors keep. -/
def sortedList (l : List Commodity) : Prop :=
  l.Pairwise (fun a b => lexLt a b = true)

/-- The registry invariant relating the five storage items (spec I1–I4):
per-account vectors are sorted with pairwise-distinct identifiers, vector
entries agree with the reverse index, per-account counters equal vector
lengths, and `total` is the sum of the per-account counters. -/
structure Inv (s : RegState) : Prop where
  tfaKeys : (s.tfa.map Prod.fst).Nodup
  sorted : ∀ a, sortedList (mget [] s.cfa a)
  idsNodup : ∀ a, ((mget [] s.cfa a).map Prod.fst).Nodup
  own : ∀ a x, x ∈ mget [] s.cfa a →
    mhas s.afc x.1 = true ∧ mget 0 s.afc x.1 = a
  counts : ∀ a, mget 0 s.tfa a = (mget [] s.cfa a).length
  totalSum : s.total = sumVals s.tfa


/-! ## Storage-map lemmas -/

theorem mget_mput_self {β : Type} (d : β) (m : List (Nat × β)) (k : Nat) (v : β) :
    mget d (mput m k v) k = v := by
  induction m with
  | nil => simp [mput, mget]
  | cons p rest ih =>
    obtain ⟨k₀, v₀⟩ := p
    by_cases hk : k₀ = k <;> simp [mput, mget, hk, ih]

theorem mget_mput_ne {β : Type} (d : β) (m : List (Nat × β)) {k k' : Nat} (v : β)
    (h : k' ≠ k) : mget d (mput m k v) k' = mget d m k' := by
  induction m with
  | nil => simp [mput, mget, Ne.symm h]
  | cons p rest ih =>
    obtain ⟨k₀, v₀⟩ := p
    by_cases hk : k₀ = k
    · simp [mput, mget, hk, Ne.symm h]
    · simp [mput, mget, hk, ih]

theorem mhas_mput_self {β : Type} (m : List (Nat × β)) (k : Nat) (v : β) :
    mhas (mput m k v) k = true := by
  induction m with
  | nil => simp [mput, mhas]
  | cons p rest ih =>
    obtain ⟨k₀, v₀⟩ := p
    by_cases hk : k₀ = k <;> simp [mput, mhas, hk, ih]

theorem mhas_mput_ne {β : Type} (m : List (Nat × β)) {k k' : Nat} (v : β)
    (h : k' ≠ k) : mhas (mput m k v) k' = mhas m k' := by
  induction m with
  | nil => simp [mput, mhas, Ne.symm h]
  | cons p rest ih =>
    obtain ⟨k₀, v₀⟩ := p
    by_cases hk : k₀ = k
    · simp [mput, mhas, hk, Ne.symm h]
    · simp [mput, mhas, hk, ih]

theorem mget_mdel_self {β : Type} (d : β) (m : List (Nat × β)) (k : Nat) :
    mget d (mdel m k) k = d := by
  induction m with
  | nil => simp [mdel, mget]
  | cons p rest ih =>
    obtain ⟨k₀, v₀⟩ := p
    by_cases hk : k₀ = k <;> simp [mdel, mget, hk, ih]

theorem mhas_mdel_self {β : Type} (m : List (Nat × β)) (k : Nat) :
    mhas (mdel m k) k = false := by
  induction m with
  | nil => simp [mdel, mhas]
  | cons p rest ih =>
    obtain ⟨k₀, v₀⟩ := p
    by_cases hk : k₀ = k <;> simp [mdel, mhas, hk, ih]

theorem mget_mdel_ne {β : Type} (d : β) (m : List (Nat × β)) {k k' : Nat}
    (h : k' ≠ k) : mget d (mdel m k) k' = mget d m k' := by
  induction m with
  | nil => simp [mdel]
  | cons p rest ih =>
    obtain ⟨k₀, v₀⟩ := p
    by_cases hk : k₀ = k
    · simp [mdel, mget, hk, Ne.symm h, ih]
    · simp [mdel, mget, hk, ih]

theorem mhas_mdel_ne {β : Type} (m : List (Nat × β)) {k k' : Nat}
    (h : k' ≠ k) : mhas (mdel m k) k' = mhas m k' := by
  induction m with
  | nil => simp [mdel]
  | cons p rest ih =>
    obtain ⟨k₀, v₀⟩ := p
    by_cases hk : k₀ = k
    · simp [mdel, mhas, hk, Ne.symm h, ih]
    · simp [mdel, mhas, hk, ih]

theorem mget_of_mhas_false {β : Type} (d : β) (m : List (Nat × β)) {k : Nat}
    (h : mhas m k = false) : mget d m k = d := by
  induction m with
  | nil => simp [mget]
  | cons p rest ih =>
    obtain ⟨k₀, v₀⟩ := p
    simp [mhas] at h
    simp [mget, h.1, ih h.2]

theorem sumVals_mput (m : List (Nat × Nat)) (k v : Nat) :
    sumVals (mput m k v) + mget 0 m k = sumVals m + v := by
  induction m with
  | nil => simp [mput, mget, sumVals]
  | cons p rest ih =>
    obtain ⟨k₀, v₀⟩ := p
    by_cases hk : k₀ = k
    · simp [mput, mget, sumVals, hk]
      omega
    · simp [mput, mget, sumVals, hk]
      omega

theorem mem_mput {β : Type} (m : List (Nat × β)) (k : Nat) (v : β)
    (x : Nat × β) (h : x ∈ mput m k v) : x = (k, v) ∨ x ∈ m := by
  induction m with
  | nil => exact Or.inl (by simpa [mput] using h)
  | cons p rest ih =>
    obtain ⟨k₀, v₀⟩ := p
    by_cases hk : k₀ = k
    · rw [mput, if_pos hk] at h
      rcases List.mem_cons.1 h with h' | h'
      · exact Or.inl h'
      · exact Or.inr (List.mem_cons_of_mem _ h')
    · rw [mput, if_neg hk] at h
      rcases List.mem_cons.1 h with h' | h'
      · exact Or.inr (h' ▸ List.mem_cons_self _ _)
      · rcases ih h' with h'' | h''
        · exact Or.inl h''
        · exact Or.inr (List.mem_cons_of_mem _ h'')

theorem keys_mput_nodup {β : Type} (m : List (Nat × β)) (k : Nat) (v : β)
    (h : (m.map Prod.fst).Nodup) : ((mput m k v).map Prod.fst).Nodup := by
  induction m with
  | nil => simp [mput]
  | cons p rest ih =>
    obtain ⟨k₀, v₀⟩ := p
    rw [List.map_cons, List.nodup_cons] at h
    by_cases hk : k₀ = k
    · rw [mput, if_pos hk, List.map_cons, List.nodup_cons]
      exact ⟨hk ▸ h.1, h.2⟩
    · rw [mput, if_neg hk, List.map_cons, List.nodup_cons]
      refine ⟨fun hmem => ?_, ih h.2⟩
      obtain ⟨x, hx, hfst⟩ := List.mem_map.1 hmem
      simp only [] at hfst
      rcases mem_mput rest k v x hx with h' | h'
      · exact hk (by rw [show k₀ = x.1 from hfst.symm, h'])
      · exact h.1 (List.mem_map.2 ⟨x, h', hfst⟩)

/-! ## Vector and binary-search lemmas -/

theorem insAt_perm {α : Type} (l : List α) (p : Nat) (x : α) :
    List.Perm (insAt l p x) (x :: l) := by
  induction l generalizing p with
  | nil => cases p <;> simp [insAt]
  | cons y ys ih =>
    cases p with
    | zero => simp [insAt]
    | succ q => exact ((ih q).cons y).trans (List.Perm.swap x y ys)

theorem rmAt_sublist {α : Type} (l : List α) (p : Nat) :
    List.Sublist (rmAt l p) l := by
  induction l generalizing p with
  | nil => simp [rmAt]
  | cons y ys ih =>
    cases p with
    | zero => exact List.sublist_cons_self y ys
    | succ q => exact (ih q).cons₂ y

theorem mem_rmAt {α : Type} (l : List α) (p : Nat) {x : α}
    (h : x ∈ rmAt l p) : x ∈ l := (rmAt_sublist l p).mem h

theorem length_rmAt {α : Type} (l : List α) (p : Nat) (hp : p < l.length) :
    (rmAt l p).length + 1 = l.length := by
  induction l generalizing p with
  | nil => simp at hp
  | cons y ys ih =>
    cases p with
    | zero => simp [rmAt]
    | succ q =>
      have := ih q (by simpa using hp)
      simp [rmAt]
      omega

theorem map_rmAt {α β : Type} (f : α → β) (l : List α) (p : Nat) :
    (rmAt l p).map f = rmAt (l.map f) p := by
  induction l generalizing p with
  | nil => simp [rmAt]
  | cons y ys ih =>
    cases p with
    | zero => simp [rmAt]
    | succ q => simp [rmAt, ih]

theorem nthD_mem {α : Type} (d : α) (l : List α) (p : Nat) (hp : p < l.length) :
    nthD d l p ∈ l := by
  induction l generalizing p with
  | nil => simp at hp
  | cons y ys ih =>
    cases p with
    | zero => simp [nthD]
    | succ q => exact List.mem_cons_of_mem _ (ih q (by simpa using hp))

theorem nthD_map {α β : Type} (f : α → β) (d : α) (l : List α) (p : Nat) :
    nthD (f d) (l.map f) p = f (nthD d l p) := by
  induction l generalizing p with
  | nil => simp [nthD]
  | cons y ys ih =>
    cases p with
    | zero => simp [nthD]
    | succ q => simp [nthD, ih]

theorem nthD_not_mem_rmAt {α : Type} (d : α) (l : List α) (p : Nat)
    (hnd : l.Nodup) (hp : p < l.length) : nthD d l p ∉ rmAt l p := by
  induction l generalizing p with
  | nil => simp at hp
  | cons y ys ih =>
    rw [List.nodup_cons] at hnd
    cases p with
    | zero => simpa [nthD, rmAt] using hnd.1
    | succ q =>
      have hq : q < ys.length := by simpa using hp
      intro hmem
      rw [nthD, rmAt] at hmem
      rcases List.mem_cons.1 hmem with h' | h'
      · exact hnd.1 (h' ▸ nthD_mem d ys q hq)
      · exact ih q hnd.2 hq h'

/-- `binary_search` returning `Ok pos` means the element at `pos` equals the
probe (and `pos` is in range). -/
theorem bsr_inl (l : List Commodity) (t : Commodity) (p : Nat)
    (h : bsr l t = .inl p) : p < l.length ∧ nthD t l p = t := by
  induction l generalizing p with
  | nil => simp [bsr] at h
  | cons x xs ih =>
    rw [bsr] at h
    by_cases h1 : lexLt t x
    · rw [if_pos h1] at h
      exact absurd h (by simp)
    · rw [if_neg h1] at h
      by_cases h2 : t = x
      · rw [if_pos h2] at h
        have hp : p = 0 := (Sum.inl.inj h).symm
        subst hp
        simpa [nthD] using h2.symm
      · rw [if_neg h2] at h
        cases hb : bsr xs t with
        | inl q =>
          rw [hb] at h
          have hp : p = q + 1 := (Sum.inl.inj h).symm
          subst hp
          have := ih q hb
          exact ⟨by simpa using Nat.succ_lt_succ this.1, by simpa [nthD] using this.2⟩
        | inr q =>
          rw [hb] at h
          exact absurd h (by simp)

theorem bsr_inl_mem (l : List Commodity) (t : Commodity) (p : Nat)
    (h : bsr l t = .inl p) : t ∈ l := by
  obtain ⟨hp, hg⟩ := bsr_inl l t p h
  exact hg ▸ nthD_mem t l p hp

theorem bsr_inr_of_not_mem (l : List Commodity) (t : Commodity)
    (h : t ∉ l) : ∃ p, bsr l t = .inr p := by
  cases hb : bsr l t with
  | inl q => exact absurd (bsr_inl_mem l t q hb) h
  | inr q => exact ⟨q, rfl⟩

/-! ## Order lemmas for the derived tuple order -/

theorem lexLt_iff (a b : Nat × Nat) :
    lexLt a b = true ↔ a.1 < b.1 ∨ (a.1 = b.1 ∧ a.2 < b.2) := by
  simp [lexLt]

theorem lexLt_trans {a b c : Nat × Nat} (h1 : lexLt a b = true)
    (h2 : lexLt b c = true) : lexLt a c = true := by
  rw [lexLt_iff] at h1 h2 ⊢
  omega

theorem lexLt_of_not {a b : Nat × Nat} (hne : a ≠ b)
    (h : ¬ lexLt a b = true) : lexLt b a = true := by
  rw [lexLt_iff] at h ⊢
  have hne' : a.1 ≠ b.1 ∨ a.2 ≠ b.2 := by
    by_contra hc
    push_neg at hc
    exact hne (Prod.ext hc.1 hc.2)
  omega

/-- `binary_search` returning `Err pos` means inserting at `pos` keeps the
vector sorted. -/
theorem bsr_inr_sorted (l : List Commodity) (t : Commodity) (p : Nat)
    (hs : sortedList l) (h : bsr l t = .inr p) : sortedList (insAt l p t) := by
  induction l generalizing p with
  | nil =>
    rw [bsr] at h
    have hp : p = 0 := (Sum.inr.inj h).symm
    subst hp
    simp [insAt, sortedList]
  | cons x xs ih =>
    rw [sortedList, List.pairwise_cons] at hs
    rw [bsr] at h
    by_cases h1 : lexLt t x
    · rw [if_pos h1] at h
      have hp : p = 0 := (Sum.inr.inj h).symm
      subst hp
      rw [insAt, sortedList, List.pairwise_cons]
      refine ⟨fun b hb => ?_, List.Pairwise.cons hs.1 hs.2⟩
      rcases List.mem_cons.1 hb with h' | h'
      · exact h' ▸ h1
      · exact lexLt_trans h1 (hs.1 b h')
    · rw [if_neg h1] at h
      by_cases h2 : t = x
      · rw [if_pos h2] at h
        exact absurd h (by simp)
      · rw [if_neg h2] at h
        cases hb : bsr xs t with
        | inl q =>
          rw [hb] at h
          exact absurd h (by simp)
        | inr q =>
          rw [hb] at h
          have hp : p = q + 1 := (Sum.inr.inj h).symm
          subst hp
          have hxt : lexLt x t = true := lexLt_of_not h2 h1
          rw [insAt, sortedList, List.pairwise_cons]
          refine ⟨fun b hb' => ?_, ih q hs.2 hb⟩
          rcases List.mem_cons.1 ((insAt_perm xs q t).mem_iff.1 hb') with h' | h'
          · exact h' ▸ hxt
          · exact hs.1 b h'

/-- `binary_search`-driven insertion (`Err` branch) is ordered insertion. -/
theorem insAt_bsr_eq_insSorted (l : List Commodity) (t : Commodity) (p : Nat)
    (h : bsr l t = .inr p) : insAt l p t = insSorted l t := by
  induction l generalizing p with
  | nil =>
    rw [bsr] at h
    have hp : p = 0 := (Sum.inr.inj h).symm
    subst hp
    simp [insAt, insSorted]
  | cons x xs ih =>
    rw [bsr] at h
    by_cases h1 : lexLt t x
    · rw [if_pos h1] at h
      have hp : p = 0 := (Sum.inr.inj h).symm
      subst hp
      simp [insAt, insSorted, h1]
    · rw [if_neg h1] at h
      by_cases h2 : t = x
      · rw [if_pos h2] at h
        exact absurd h (by simp)
      · rw [if_neg h2] at h
        cases hb : bsr xs t with
        | inl q =>
          rw [hb] at h
          exact absurd h (by simp)
        | inr q =>
          rw [hb] at h
          have hp : p = q + 1 := (Sum.inr.inj h).symm
          subst hp
          simp [insAt, insSorted, h1, ih q hb]

/-! ## `insertOwned` lemmas (used when the element is absent) -/

theorem insertOwned_eq_insAt (l : List Commodity) (t : Commodity)
    (h : t ∉ l) : ∃ p, bsr l t = .inr p ∧ insertOwned l t = insAt l p t := by
  obtain ⟨p, hp⟩ := bsr_inr_of_not_mem l t h
  exact ⟨p, hp, by rw [insertOwned, hp]⟩

theorem insertOwned_perm (l : List Commodity) (t : Commodity)
    (h : t ∉ l) : List.Perm (insertOwned l t) (t :: l) := by
  obtain ⟨p, _, he⟩ := insertOwned_eq_insAt l t h
  rw [he]
  exact insAt_perm l p t

theorem insertOwned_sorted (l : List Commodity) (t : Commodity)
    (hs : sortedList l) (h : t ∉ l) : sortedList (insertOwned l t) := by
  obtain ⟨p, hp, he⟩ := insertOwned_eq_insAt l t h
  rw [he]
  exact bsr_inr_sorted l t p hs hp

theorem insertOwned_eq_insSorted (l : List Commodity) (t : Commodity)
    (h : t ∉ l) : insertOwned l t = insSorted l t := by
  obtain ⟨p, hp, he⟩ := insertOwned_eq_insAt l t h
  rw [he]
  exact insAt_bsr_eq_insSorted l t p hp

theorem insertOwned_length (l : List Commodity) (t : Commodity)
    (h : t ∉ l) : (insertOwned l t).length = l.length + 1 := by
  simpa using (insertOwned_perm l t h).length_eq

theorem mem_insertOwned (l : List Commodity) (t : Commodity) (x : Commodity)
    (h : t ∉ l) : x ∈ insertOwned l t ↔ x = t ∨ x ∈ l := by
  rw [(insertOwned_perm l t h).mem_iff, List.mem_cons]

/-! ## Success characterizations of the three operations -/

theorem mint_ok {c : Config} {h : Info → CommodityId} {s : RegState}
    {owner : AccountId} {info : Info} {s' : RegState} {cid : CommodityId}
    (hok : mint c h s owner info = .ok (s', cid)) :
    mhas s.afc (h info) = false ∧ mget 0 s.tfa owner < c.userLimit ∧
    s.total < c.commodityLimit ∧ s' = mintState h s owner info ∧
    cid = h info := by
  rw [mint] at hok
  by_cases h1 : mhas s.afc (h info)
  · rw [if_pos (by simpa using h1)] at hok
    exact absurd hok (by simp)
  · rw [if_neg (by simpa using h1)] at hok
    by_cases h2 : mget 0 s.tfa owner < c.userLimit
    · rw [if_pos h2] at hok
      by_cases h3 : s.total < c.commodityLimit
      · rw [if_pos h3] at hok
        have := Outcome.ok.inj hok
        exact ⟨by simpa using h1, h2, h3, (Prod.mk.injEq _ _ _ _ ▸ this).1.symm,
          (Prod.mk.injEq _ _ _ _ ▸ this).2.symm⟩
      · rw [if_neg h3] at hok
        exact absurd hok (by simp)
    · rw [if_neg h2] at hok
      exact absurd hok (by simp)

theorem burn_ok {s : RegState} {cid : CommodityId} {s' : RegState}
    (hok : burn s cid = .ok s') :
    mget 0 s.afc cid ≠ 0 ∧
    ∃ pos, bsr (mget [] s.cfa (mget 0 s.afc cid)) (cid, 0) = .inl pos ∧
      s' = burnState s cid pos := by
  rw [burn] at hok
  by_cases h1 : mget 0 s.afc cid = 0
  · rw [if_pos h1] at hok
    exact absurd hok (by simp)
  · rw [if_neg h1] at hok
    refine ⟨h1, ?_⟩
    cases hb : bsr (mget [] s.cfa (mget 0 s.afc cid)) (cid, 0) with
    | inl pos =>
      rw [hb] at hok
      exact ⟨pos, rfl, (Outcome.ok.inj hok).symm⟩
    | inr pos =>
      rw [hb] at hok
      exact absurd hok (by simp)

theorem transfer_ok {c : Config} {s : RegState} {dest : AccountId}
    {cid : CommodityId} {s' : RegState}
    (hok : transfer c s dest cid = .ok s') :
    mget 0 s.afc cid ≠ 0 ∧ mget 0 s.tfa dest < c.userLimit ∧
    ∃ pos, bsr (mget [] s.cfa (mget 0 s.afc cid)) (cid, 0) = .inl pos ∧
      s' = transferState s dest cid pos := by
  rw [transfer] at hok
  by_cases h1 : mget 0 s.afc cid = 0
  · rw [if_pos h1] at hok
    exact absurd hok (by simp)
  · rw [if_neg h1] at hok
    by_cases h2 : mget 0 s.tfa dest < c.userLimit
    · rw [if_pos h2] at hok
      refine ⟨h1, h2, ?_⟩
      cases hb : bsr (mget [] s.cfa (mget 0 s.afc cid)) (cid, 0) with
      | inl pos =>
        rw [hb] at hok
        exact ⟨pos, rfl, (Outcome.ok.inj hok).symm⟩
      | inr pos =>
        rw [hb] at hok
        exact absurd hok (by simp)
    · rw [if_neg h2] at hok
      exact absurd hok (by simp)

/-! ## Consequences of the invariant -/

/-- An identifier stored in some account's vector but absent from
`AccountForCommodity` contradicts the invariant. -/
theorem not_mem_of_mhas_false {s : RegState} (hInv : Inv s)
    {cid : CommodityId} (hhas : mhas s.afc cid = false) (a : AccountId)
    (i : Info) : (cid, i) ∉ mget [] s.cfa a := by
  intro hmem
  have := (hInv.own a (cid, i) hmem).1
  rw [hhas] at this
  exact Bool.false_ne_true this

/-- A stored identifier's vector entry lives in the account the reverse
index names. -/
theorem not_mem_of_owner_ne {s : RegState} (hInv : Inv s)
    {cid : CommodityId} {a : AccountId} (hne : mget 0 s.afc cid ≠ a)
    (i : Info) : (cid, i) ∉ mget [] s.cfa a := by
  intro hmem
  exact hne (hInv.own a (cid, i) hmem).2

/-- In a vector with pairwise-distinct identifiers, removing the position
holding `cid` leaves no entry with identifier `cid`. -/
theorem key_not_mem_rmAt {l : List Commodity} {cid : CommodityId} {pos : Nat}
    (hnd : (l.map Prod.fst).Nodup) (hlen : pos < l.length)
    (hget : nthD (cid, 0) l pos = (cid, 0)) (i : Info) :
    (cid, i) ∉ rmAt l pos := by
  intro hmem
  have hmap : cid ∈ (rmAt l pos).map Prod.fst :=
    List.mem_map.2 ⟨(cid, i), hmem, rfl⟩
  rw [map_rmAt] at hmap
  have hnth : nthD cid (l.map Prod.fst) pos = cid := by
    have := nthD_map Prod.fst (cid, 0) l pos
    rw [hget] at this
    simpa using this
  have hlen' : pos < (l.map Prod.fst).length := by simpa using hlen
  exact (hnth ▸ nthD_not_mem_rmAt cid (l.map Prod.fst) pos hnd hlen') hmap

/-- An identifier absent from `AccountForCommodity` heads no entry of any
per-account vector, so in particular not of the keys of one vector. -/
theorem key_not_mem_keys {s : RegState} (hInv : Inv s) {cid : CommodityId}
    (hhas : mhas s.afc cid = false) (a : AccountId) :
    cid ∉ (mget [] s.cfa a).map Prod.fst := by
  intro hmem
  obtain ⟨y, hy, hfst⟩ := List.mem_map.1 hmem
  have hye : (cid, y.2) = y := Prod.ext hfst.symm rfl
  exact not_mem_of_mhas_false hInv hhas a y.2 (by rw [hye]; exact hy)

/-! ## Invariant preservation -/

theorem inv_mint {c : Config} {h : Info → CommodityId} {s : RegState}
    {owner : AccountId} {info : Info} {s' : RegState} {cid : CommodityId}
    (hInv : Inv s) (hok : mint c h s owner info = .ok (s', cid)) : Inv s' := by
  obtain ⟨hhas, hlt, htot, hs', hcid⟩ := mint_ok hok
  subst hs'
  have hnm : (h info, info) ∉ mget [] s.cfa owner :=
    not_mem_of_mhas_false hInv hhas owner info
  refine ⟨?_, ?_, ?_, ?_, ?_, ?_⟩
  · -- keys of `TotalForAccount` stay duplicate-free
    exact keys_mput_nodup _ _ _ hInv.tfaKeys
  · -- per-account vectors stay sorted
    intro a
    by_cases ha : a = owner
    · subst ha
      show sortedList (mget [] (mput s.cfa a _) a)
      rw [mget_mput_self]
      exact insertOwned_sorted _ _ (hInv.sorted a) hnm
    · show sortedList (mget [] (mput s.cfa owner _) a)
      rw [mget_mput_ne [] s.cfa _ ha]
      exact hInv.sorted a
  · -- identifiers in each vector stay pairwise distinct
    intro a
    by_cases ha : a = owner
    · subst ha
      show (((mget [] (mput s.cfa a _) a)).map Prod.fst).Nodup
      rw [mget_mput_self]
      rw [List.Perm.nodup_iff ((insertOwned_perm _ _ hnm).map Prod.fst)]
      rw [List.map_cons, List.nodup_cons]
      exact ⟨key_not_mem_keys hInv hhas a, hInv.idsNodup a⟩
    · show (((mget [] (mput s.cfa owner _) a)).map Prod.fst).Nodup
      rw [mget_mput_ne [] s.cfa _ ha]
      exact hInv.idsNodup a
  · -- vector entries agree with the reverse index
    intro a x hx
    simp only [mintState] at hx ⊢
    by_cases ha : a = owner
    · subst ha
      rw [show mget [] (mput s.cfa a _) a = _ from mget_mput_self _ _ _ _] at hx
      rcases (mem_insertOwned _ _ x hnm).1 hx with hx' | hx'
      · subst hx'
        exact ⟨mhas_mput_self _ _ _, mget_mput_self _ _ _ _⟩
      · have hne : x.1 ≠ h info := by
          intro he
          exact not_mem_of_mhas_false hInv hhas a x.2
            (by rw [show ((h info, x.2) : Commodity) = x from Prod.ext he.symm rfl]; exact hx')
        rw [mhas_mput_ne _ _ hne, mget_mput_ne _ _ _ hne]
        exact hInv.own a x hx'
    · rw [show mget [] (mput s.cfa owner _) a = mget [] s.cfa a from
        mget_mput_ne [] s.cfa _ ha] at hx
      have hne : x.1 ≠ h info := by
        intro he
        exact not_mem_of_mhas_false hInv hhas a x.2
          (by rw [show ((h info, x.2) : Commodity) = x from Prod.ext he.symm rfl]; exact hx)
      rw [mhas_mput_ne _ _ hne, mget_mput_ne _ _ _ hne]
      exact hInv.own a x hx
  · -- per-account counters equal vector lengths
    intro a
    by_cases ha : a = owner
    · subst ha
      show mget 0 (mput s.tfa a _) a = (mget [] (mput s.cfa a _) a).length
      rw [mget_mput_self, mget_mput_self, insertOwned_length _ _ hnm,
        hInv.counts a]
    · show mget 0 (mput s.tfa owner _) a = (mget [] (mput s.cfa owner _) a).length
      rw [mget_mput_ne 0 s.tfa _ ha, mget_mput_ne [] s.cfa _ ha]
      exact hInv.counts a
  · -- `Total` equals the sum of the per-account counters
    show s.total + 1 = sumVals (mput s.tfa owner (mget 0 s.tfa owner + 1))
    have := sumVals_mput s.tfa owner (mget 0 s.tfa owner + 1)
    have h0 := hInv.totalSum
    omega

theorem inv_burn {s : RegState} {cid : CommodityId} {s' : RegState}
    (hInv : Inv s) (hok : burn s cid = .ok s') : Inv s' := by
  obtain ⟨hown, pos, hb, hs'⟩ := burn_ok hok
  subst hs'
  obtain ⟨hlen, hget⟩ := bsr_inl _ _ _ hb
  have hkeyrm : ∀ i, (cid, i) ∉ rmAt (mget [] s.cfa (mget 0 s.afc cid)) pos :=
    key_not_mem_rmAt (hInv.idsNodup (mget 0 s.afc cid)) hlen hget
  refine ⟨?_, ?_, ?_, ?_, ?_, ?_⟩
  · exact keys_mput_nodup _ _ _ hInv.tfaKeys
  · intro a
    by_cases ha : a = mget 0 s.afc cid
    · rw [ha]
      show sortedList (mget [] (mput s.cfa (mget 0 s.afc cid) _) (mget 0 s.afc cid))
      rw [mget_mput_self]
      exact (hInv.sorted _).sublist (rmAt_sublist _ _)
    · show sortedList (mget [] (mput s.cfa (mget 0 s.afc cid) _) a)
      rw [mget_mput_ne [] s.cfa _ ha]
      exact hInv.sorted a
  · intro a
    by_cases ha : a = mget 0 s.afc cid
    · rw [ha]
      show ((mget [] (mput s.cfa (mget 0 s.afc cid) _) (mget 0 s.afc cid)).map
        Prod.fst).Nodup
      rw [mget_mput_self, map_rmAt]
      exact (hInv.idsNodup _).sublist (rmAt_sublist _ _)
    · show ((mget [] (mput s.cfa (mget 0 s.afc cid) _) a).map Prod.fst).Nodup
      rw [mget_mput_ne [] s.cfa _ ha]
      exact hInv.idsNodup a
  · intro a x hx
    simp only [burnState] at hx ⊢
    by_cases ha : a = mget 0 s.afc cid
    · rw [ha] at hx ⊢
      rw [show mget [] (mput s.cfa (mget 0 s.afc cid) _) (mget 0 s.afc cid) = _ from
        mget_mput_self _ _ _ _] at hx
      have hne : x.1 ≠ cid := by
        intro he
        exact hkeyrm x.2
          (by rw [show ((cid, x.2) : Commodity) = x from Prod.ext he.symm rfl]; exact hx)
      rw [mhas_mdel_ne _ hne, mget_mdel_ne _ _ hne]
      exact hInv.own _ x (mem_rmAt _ _ hx)
    · rw [show mget [] (mput s.cfa (mget 0 s.afc cid) _) a = mget [] s.cfa a from
        mget_mput_ne [] s.cfa _ ha] at hx
      have hne : x.1 ≠ cid := by
        intro he
        apply ha
        rw [← (hInv.own a x hx).2, he]
      rw [mhas_mdel_ne _ hne, mget_mdel_ne _ _ hne]
      exact hInv.own a x hx
  · intro a
    by_cases ha : a = mget 0 s.afc cid
    · rw [ha]
      show mget 0 (mput s.tfa (mget 0 s.afc cid) _) (mget 0 s.afc cid) =
        (mget [] (mput s.cfa (mget 0 s.afc cid) _) (mget 0 s.afc cid)).length
      rw [mget_mput_self, mget_mput_self]
      have h1 := length_rmAt _ pos hlen
      have h2 := hInv.counts (mget 0 s.afc cid)
      omega
    · show mget 0 (mput s.tfa (mget 0 s.afc cid) _) a =
        (mget [] (mput s.cfa (mget 0 s.afc cid) _) a).length
      rw [mget_mput_ne 0 s.tfa _ ha, mget_mput_ne [] s.cfa _ ha]
      exact hInv.counts a
  · show s.total - 1 = sumVals (mput s.tfa (mget 0 s.afc cid)
      (mget 0 s.tfa (mget 0 s.afc cid) - 1))
    have h1 := sumVals_mput s.tfa (mget 0 s.afc cid)
      (mget 0 s.tfa (mget 0 s.afc cid) - 1)
    have h2 := hInv.totalSum
    have h3 := hInv.counts (mget 0 s.afc cid)
    have h4 : 0 < (mget [] s.cfa (mget 0 s.afc cid)).length := Nat.lt_of_le_of_lt (Nat.zero_le _) hlen
    omega

theorem inv_transfer {c : Config} {s : RegState} {dest : AccountId}
    {cid : CommodityId} {s' : RegState}
    (hInv : Inv s) (hok : transfer c s dest cid = .ok s') : Inv s' := by
  obtain ⟨hown, hcap, pos, hb, hs'⟩ := transfer_ok hok
  obtain ⟨hlen, hget⟩ := bsr_inl _ _ _ hb
  have hkeyrm : ∀ i, (cid, i) ∉ rmAt (mget [] s.cfa (mget 0 s.afc cid)) pos :=
    key_not_mem_rmAt (hInv.idsNodup (mget 0 s.afc cid)) hlen hget
  subst hs'
  -- the destination vector read after the owner's removal, with membership
  -- and sortedness facts (separately for self-transfer and the general case)
  have hdl : sortedList (mget []
        (mput s.cfa (mget 0 s.afc cid) (rmAt (mget [] s.cfa (mget 0 s.afc cid)) pos)) dest) ∧
      (∀ i, (cid, i) ∉ mget []
        (mput s.cfa (mget 0 s.afc cid) (rmAt (mget [] s.cfa (mget 0 s.afc cid)) pos)) dest) := by
    by_cases hdk : dest = mget 0 s.afc cid
    · rw [hdk, mget_mput_self]
      exact ⟨(hInv.sorted _).sublist (rmAt_sublist _ _), hkeyrm⟩
    · rw [mget_mput_ne [] s.cfa _ hdk]
      exact ⟨hInv.sorted dest,
        fun i => not_mem_of_owner_ne hInv (fun he => hdk he.symm) i⟩
  refine ⟨?_, ?_, ?_, ?_, ?_, ?_⟩
  · simp only [transferState, hget]
    exact keys_mput_nodup _ _ _ (keys_mput_nodup _ _ _ hInv.tfaKeys)
  · intro a
    simp only [transferState, hget]
    by_cases had : a = dest
    · rw [had, mget_mput_self]
      exact insertOwned_sorted _ _ hdl.1 (hdl.2 0)
    · rw [mget_mput_ne [] _ _ had]
      by_cases hak : a = mget 0 s.afc cid
      · rw [hak, mget_mput_self]
        exact (hInv.sorted _).sublist (rmAt_sublist _ _)
      · rw [mget_mput_ne [] s.cfa _ hak]
        exact hInv.sorted a
  · intro a
    simp only [transferState, hget]
    by_cases had : a = dest
    · rw [had, mget_mput_self]
      rw [List.Perm.nodup_iff ((insertOwned_perm _ _ (hdl.2 0)).map Prod.fst)]
      rw [List.map_cons, List.nodup_cons]
      refine ⟨fun hmem => ?_, ?_⟩
      · obtain ⟨y, hy, hfst⟩ := List.mem_map.1 hmem
        exact hdl.2 y.2 (by
          rw [show ((cid, y.2) : Commodity) = y from Prod.ext hfst.symm rfl]
          exact hy)
      · by_cases hdk : dest = mget 0 s.afc cid
        · rw [hdk, mget_mput_self, map_rmAt]
          exact (hInv.idsNodup _).sublist (rmAt_sublist _ _)
        · rw [mget_mput_ne [] s.cfa _ hdk]
          exact hInv.idsNodup dest
    · rw [mget_mput_ne [] _ _ had]
      by_cases hak : a = mget 0 s.afc cid
      · rw [hak, mget_mput_self, map_rmAt]
        exact (hInv.idsNodup _).sublist (rmAt_sublist _ _)
      · rw [mget_mput_ne [] s.cfa _ hak]
        exact hInv.idsNodup a
  · intro a x hx
    simp only [transferState, hget] at hx ⊢
    by_cases had : a = dest
    · rw [had] at hx ⊢
      rw [mget_mput_self] at hx
      rcases (mem_insertOwned _ _ x (hdl.2 0)).1 hx with hx' | hx'
      · rw [hx']
        exact ⟨mhas_mput_self _ _ _, mget_mput_self _ _ _ _⟩
      · have hne : x.1 ≠ cid := by
          intro he
          exact hdl.2 x.2 (by
            rw [show ((cid, x.2) : Commodity) = x from Prod.ext he.symm rfl]
            exact hx')
        rw [mhas_mput_ne _ _ hne, mget_mput_ne _ _ _ hne]
        by_cases hdk : dest = mget 0 s.afc cid
        · rw [hdk, mget_mput_self] at hx'
          have := hInv.own _ x (mem_rmAt _ _ hx')
          exact ⟨this.1, by rw [this.2, hdk]⟩
        · rw [mget_mput_ne [] s.cfa _ hdk] at hx'
          exact hInv.own dest x hx'
    · rw [mget_mput_ne [] _ _ had] at hx
      by_cases hak : a = mget 0 s.afc cid
      · rw [hak] at hx ⊢
        rw [mget_mput_self] at hx
        have hne : x.1 ≠ cid := by
          intro he
          exact hkeyrm x.2 (by
            rw [show ((cid, x.2) : Commodity) = x from Prod.ext he.symm rfl]
            exact hx)
        rw [mhas_mput_ne _ _ hne, mget_mput_ne _ _ _ hne]
        exact hInv.own _ x (mem_rmAt _ _ hx)
      · rw [mget_mput_ne [] s.cfa _ hak] at hx
        have hne : x.1 ≠ cid := by
          intro he
          apply hak
          rw [← (hInv.own a x hx).2, he]
        rw [mhas_mput_ne _ _ hne, mget_mput_ne _ _ _ hne]
        exact hInv.own a x hx
  · intro a
    simp only [transferState, hget]
    have hvK : mget 0 s.tfa (mget 0 s.afc cid) =
        (mget [] s.cfa (mget 0 s.afc cid)).length := hInv.counts _
    by_cases had : a = dest
    · rw [had, mget_mput_self, mget_mput_self,
        insertOwned_length _ _ (hdl.2 0)]
      by_cases hdk : dest = mget 0 s.afc cid
      · rw [hdk, mget_mput_self, mget_mput_self]
        have h1 := length_rmAt _ pos hlen
        omega
      · rw [mget_mput_ne 0 s.tfa _ hdk, mget_mput_ne [] s.cfa _ hdk]
        rw [hInv.counts dest]
    · rw [mget_mput_ne 0 _ _ had, mget_mput_ne [] _ _ had]
      by_cases hak : a = mget 0 s.afc cid
      · rw [hak, mget_mput_self, mget_mput_self]
        have h1 := length_rmAt _ pos hlen
        omega
      · rw [mget_mput_ne 0 s.tfa _ hak, mget_mput_ne [] s.cfa _ hak]
        exact hInv.counts a
  · simp only [transferState, hget]
    have h1 := sumVals_mput s.tfa (mget 0 s.afc cid)
      (mget 0 s.tfa (mget 0 s.afc cid) - 1)
    have h2 := sumVals_mput
      (mput s.tfa (mget 0 s.afc cid) (mget 0 s.tfa (mget 0 s.afc cid) - 1)) dest
      (mget 0 (mput s.tfa (mget 0 s.afc cid)
        (mget 0 s.tfa (mget 0 s.afc cid) - 1)) dest + 1)
    have h3 := hInv.totalSum
    have h4 := hInv.counts (mget 0 s.afc cid)
    have h5 : 0 < (mget [] s.cfa (mget 0 s.afc cid)).length :=
      Nat.lt_of_le_of_lt (Nat.zero_le _) hlen
    omega

theorem inv_empty : Inv emptyState := by
  refine ⟨?_, ?_, ?_, ?_, ?_, ?_⟩ <;>
    simp [emptyState, mget, sumVals, sortedList]

theorem inv_exec {c : Config} {h : Info → CommodityId} {s : RegState}
    (hInv : Inv s) (op : Op) : Inv (exec c h s op) := by
  cases op with
  | mintOp owner info =>
    cases hm : mint c h s owner info with
    | ok p =>
      obtain ⟨s', cid⟩ := p
      simpa [exec, hm] using inv_mint hInv hm
    | err e => simpa [exec, hm] using hInv
    | panic => simpa [exec, hm] using hInv
  | burnOp cid =>
    cases hm : burn s cid with
    | ok s' => simpa [exec, hm] using inv_burn hInv hm
    | err e => simpa [exec, hm] using hInv
    | panic => simpa [exec, hm] using hInv
  | transferOp dest cid =>
    cases hm : transfer c s dest cid with
    | ok s' => simpa [exec, hm] using inv_transfer hInv hm
    | err e => simpa [exec, hm] using hInv
    | panic => simpa [exec, hm] using hInv

theorem inv_runFrom {c : Config} {h : Info → CommodityId} {s : RegState}
    (hInv : Inv s) (ops : List Op) : Inv (runFrom c h s ops) := by
  induction ops generalizing s with
  | nil => exact hInv
  | cons op ops ih => exact ih (inv_exec hInv op)

theorem inv_runOps (c : Config) (h : Info → CommodityId) (ops : List Op) :
    Inv (runOps c h ops) := inv_runFrom inv_empty ops

/-- A duplicate-free `Nat`-valued storage map sums, over any finite set
covering its keys, to the sum of its stored values. -/
theorem sumVals_eq_sum (m : List (Nat × Nat)) (hnd : (m.map Prod.fst).Nodup)
    (A : Finset Nat) (hsub : ∀ k ∈ m.map Prod.fst, k ∈ A) :
    sumVals m = ∑ a ∈ A, mget 0 m a := by
  induction m generalizing A with
  | nil =>
    simp [sumVals, mget]
  | cons p rest ih =>
    obtain ⟨k, v⟩ := p
    rw [List.map_cons, List.nodup_cons] at hnd
    have hkA : k ∈ A := hsub k (by simp)
    have hsub' : ∀ k' ∈ rest.map Prod.fst, k' ∈ A.erase k := by
      intro k' hk'
      rw [Finset.mem_erase]
      exact ⟨fun he => hnd.1 (he ▸ hk'), hsub k' (by simp [hk'])⟩
    have hstep : ∑ a ∈ A, mget 0 ((k, v) :: rest) a =
        ∑ a ∈ A.erase k, mget 0 ((k, v) :: rest) a +
          mget 0 ((k, v) :: rest) k :=
      (Finset.sum_erase_add A _ hkA).symm
    have hcong : ∑ a ∈ A.erase k, mget 0 ((k, v) :: rest) a =
        ∑ a ∈ A.erase k, mget 0 rest a := by
      refine Finset.sum_congr rfl fun a ha => ?_
      have hak : k ≠ a := fun he => (Finset.mem_erase.1 ha).1 he.symm
      simp [mget, hak]
    have hself : mget 0 ((k, v) :: rest) k = v := by simp [mget]
    have hrest : ∑ a ∈ A.erase k, mget 0 rest a = sumVals rest :=
      (ih hnd.2 (A.erase k) hsub').symm
    rw [hstep, hcong, hself, hrest]
    simp [sumVals]
    omega

/-- An asset recorded in the reverse index with the sentinel owner stays in
that condition across every operation: duplicate minting is blocked by the
presence check, and burn/transfer are blocked by the sentinel check. -/
theorem stuck_exec {c : Config} {h : Info → CommodityId} {s : RegState}
    {cid : CommodityId} (hst : mhas s.afc cid = true ∧ mget 0 s.afc cid = 0)
    (op : Op) :
    mhas (exec c h s op).afc cid = true ∧ mget 0 (exec c h s op).afc cid = 0 := by
  cases op with
  | mintOp owner info =>
    cases hm : mint c h s owner info with
    | ok p =>
      obtain ⟨s', cid'⟩ := p
      obtain ⟨hhas, _, _, hs', _⟩ := mint_ok hm
      have hne : cid ≠ h info := by
        intro he
        have hx := hst.1
        rw [he, hhas] at hx
        exact Bool.false_ne_true hx
      simp only [exec, hm, hs', mintState]
      rw [mhas_mput_ne _ _ hne, mget_mput_ne _ _ _ hne]
      exact hst
    | err e => simpa [exec, hm] using hst
    | panic => simpa [exec, hm] using hst
  | burnOp cid' =>
    cases hm : burn s cid' with
    | ok s' =>
      obtain ⟨hown, pos, hb, hs'⟩ := burn_ok hm
      have hne : cid ≠ cid' := fun he => hown (he ▸ hst.2)
      simp only [exec, hm, hs', burnState]
      rw [mhas_mdel_ne _ hne, mget_mdel_ne _ _ hne]
      exact hst
    | err e => simpa [exec, hm] using hst
    | panic => simpa [exec, hm] using hst
  | transferOp dest cid' =>
    cases hm : transfer c s dest cid' with
    | ok s' =>
      obtain ⟨hown, _, pos, hb, hs'⟩ := transfer_ok hm
      have hne : cid ≠ cid' := fun he => hown (he ▸ hst.2)
      simp only [exec, hm, hs', transferState]
      rw [mhas_mput_ne _ _ hne, mget_mput_ne _ _ _ hne]
      exact hst
    | err e => simpa [exec, hm] using hst
    | panic => simpa [exec, hm] using hst

theorem stuck_runFrom {c : Config} {h : Info → CommodityId} {s : RegState}
    {cid : CommodityId} (hst : mhas s.afc cid = true ∧ mget 0 s.afc cid = 0)
    (ops : List Op) :
    mhas (runFrom c h s ops).afc cid = true ∧
      mget 0 (runFrom c h s ops).afc cid = 0 := by
  induction ops generalizing s with
  | nil => exact hst
  | cons op ops ih => exact ih (stuck_exec hst op)

/-- A stored value is at most the sum of all stored values. -/
theorem mget_le_sumVals (m : List (Nat × Nat)) (k : Nat) :
    mget 0 m k ≤ sumVals m := by
  induction m with
  | nil => simp [mget, sumVals]
  | cons p rest ih =>
    obtain ⟨k₀, v₀⟩ := p
    by_cases hk : k₀ = k
    · simp [mget, sumVals, hk]
    · simp [mget, sumVals, hk]
      omega

/-! ## Concrete demonstration states (shared by witnesses and
counterexamples) -/

/-- Small ceilings for the concrete runs. -/
def demoConfig : Config := ⟨5, 5⟩

/-- A concrete injected identifier deriver. -/
def demoHash : Info → CommodityId := Nat.succ

/-- State after `mint(account 1, info 0)` from genesis (asset id 1). -/
def sMint10 : RegState := exec demoConfig demoHash emptyState (.mintOp 1 0)

/-- State after burning asset 1 from `sMint10`. -/
def sBurn1 : RegState := exec demoConfig demoHash sMint10 (.burnOp 1)

/-- State after the self-transfer `transfer(account 1, asset 1)` from `sMint10`. -/
def sSelfXfer : RegState := exec demoConfig demoHash sMint10 (.transferOp 1 1)

/-- State after `transfer(account 2, asset 1)` from `sMint10`. -/
def sXfer12 : RegState := exec demoConfig demoHash sMint10 (.transferOp 2 1)

/-- State after `mint(account 0, info 0)` from genesis — minting to the
default-account sentinel (asset id 1). -/
def sMintDef : RegState := mintState demoHash emptyState 0 0

/-! ## The claims -/

/-- Claim C1: for an asset with a non-null recorded owner, a successful
`burn(id)` leaves `ownerOf(id)` at the null sentinel, removes the asset's
identifier from every account's collection, decreases `total` by exactly 1
and increases `burned` by exactly 1. -/
theorem claim1_burn_removes_completely {s s' : RegState} {cid : CommodityId}
    (hInv : Inv s) (hown : mget 0 s.afc cid ≠ 0) (hok : burn s cid = .ok s') :
    mget 0 s'.afc cid = 0 ∧ (∀ a i, (cid, i) ∉ mget [] s'.cfa a) ∧
    s.total = s'.total + 1 ∧ s'.burned = s.burned + 1 := by
  obtain ⟨hown', pos, hb, hs'⟩ := burn_ok hok
  obtain ⟨hlen, hget⟩ := bsr_inl _ _ _ hb
  have hkeyrm : ∀ i, (cid, i) ∉ rmAt (mget [] s.cfa (mget 0 s.afc cid)) pos :=
    key_not_mem_rmAt (hInv.idsNodup (mget 0 s.afc cid)) hlen hget
  subst hs'
  refine ⟨?_, ?_, ?_, ?_⟩
  · simp only [burnState]
    exact mget_mdel_self _ _ _
  · intro a i
    simp only [burnState]
    by_cases ha : a = mget 0 s.afc cid
    · rw [ha, mget_mput_self]
      exact hkeyrm i
    · rw [mget_mput_ne [] s.cfa _ ha]
      exact not_mem_of_owner_ne hInv (fun he => ha he.symm) i
  · simp only [burnState]
    have h1 := hInv.totalSum
    have h2 := hInv.counts (mget 0 s.afc cid)
    have h3 := mget_le_sumVals s.tfa (mget 0 s.afc cid)
    omega
  · simp only [burnState]

/-- Claim C1 witness: burning asset 1 from the one-asset state `sMint10`
realizes all four postconditions. -/
theorem claim1_witness :
    mget 0 sBurn1.afc 1 = 0 ∧ (1, 0) ∉ mget [] sBurn1.cfa 1 ∧
    sMint10.total = sBurn1.total + 1 ∧ sBurn1.burned = sMint10.burned + 1 := by
  have hInv : Inv sMint10 :=
    inv_mint inv_empty
      (show mint demoConfig demoHash emptyState 1 0 = .ok (sMint10, 1) by decide)
  have T := claim1_burn_removes_completely hInv
    (show mget 0 sMint10.afc 1 ≠ 0 by decide)
    (show burn sMint10 1 = .ok sBurn1 by decide)
  exact ⟨T.1, T.2.1 1 0, T.2.2.1, T.2.2.2⟩

/-- Claim C2 (refuted; the code contradicts its own `expect` message): from
the empty registry, `mint(account 1, info 5)` then `burn` of the minted id
passes the existence check, yet `binary_search` for
`(id, CommodityInfo::default())` misses the stored `(id, 5)` entry and the
non-recoverable `expect` branch is reached. -/
theorem claim2_expect_branch_reachable :
    burn (runOps demoConfig demoHash [Op.mintOp 1 5]) 6 = Outcome.panic := by
  decide

/-- Claim C3 counterexample: with destination equal to the current owner
(`A = B = account 1`), the self-transfer succeeds but account 1's collection
still contains the asset, refuting "A's collection no longer contains an
asset with identifier id" as universally stated. -/
theorem claim3_counterexample :
    mint demoConfig demoHash emptyState 1 0 = .ok (sMint10, 1) ∧
    transfer demoConfig sMint10 1 1 = .ok sSelfXfer ∧
    (1, 0) ∈ mget [] sSelfXfer.cfa 1 := by
  decide

/-- Claim C3 (amended: the destination must differ from the minting owner):
if `mint(A, info)` succeeds with id `cid`, then `ownerOf(cid) = A`, and if
`transfer(B, cid)` then succeeds with `B ≠ A`, afterwards `ownerOf(cid) = B`,
A's collection has no entry with identifier `cid`, and B's has one. -/
theorem claim3_ownership_round_trip {c : Config} {h : Info → CommodityId}
    {s s₁ s₂ : RegState} {A B : AccountId} {info : Info} {cid : CommodityId}
    (hInv : Inv s) (hmint : mint c h s A info = .ok (s₁, cid))
    (hxfer : transfer c s₁ B cid = .ok s₂) (hne : B ≠ A) :
    mget 0 s₁.afc cid = A ∧ mget 0 s₂.afc cid = B ∧
    (∀ i, (cid, i) ∉ mget [] s₂.cfa A) ∧ (∃ i, (cid, i) ∈ mget [] s₂.cfa B) := by
  have hInv₁ : Inv s₁ := inv_mint hInv hmint
  obtain ⟨hhas, hcap, htot, hs₁, hcid⟩ := mint_ok hmint
  have hA : mget 0 s₁.afc cid = A := by
    rw [hs₁]
    simp only [mintState]
    rw [hcid]
    exact mget_mput_self _ _ _ _
  obtain ⟨hown₁, hcap₁, pos, hb, hs₂⟩ := transfer_ok hxfer
  obtain ⟨hlen, hget⟩ := bsr_inl _ _ _ hb
  have hkeyrm : ∀ i, (cid, i) ∉ rmAt (mget [] s₁.cfa (mget 0 s₁.afc cid)) pos :=
    key_not_mem_rmAt (hInv₁.idsNodup (mget 0 s₁.afc cid)) hlen hget
  have hBA : B ≠ mget 0 s₁.afc cid := by rw [hA]; exact hne
  subst hs₂
  refine ⟨hA, ?_, ?_, ?_⟩
  · simp only [transferState]
    exact mget_mput_self _ _ _ _
  · intro i
    simp only [transferState, hget]
    rw [mget_mput_ne [] _ _ (fun he => hne he.symm)]
    rw [show A = mget 0 s₁.afc cid from hA.symm, mget_mput_self]
    exact hkeyrm i
  · refine ⟨0, ?_⟩
    simp only [transferState, hget]
    rw [mget_mput_self]
    have hnm : ((cid, 0) : Commodity) ∉
        mget [] (mput s₁.cfa (mget 0 s₁.afc cid)
          (rmAt (mget [] s₁.cfa (mget 0 s₁.afc cid)) pos)) B := by
      rw [mget_mput_ne [] s₁.cfa _ hBA]
      exact not_mem_of_owner_ne hInv₁ (by rw [hA]; exact fun he => hne he.symm) 0
    exact (mem_insertOwned _ _ _ hnm).2 (Or.inl rfl)

/-- Claim C3 witness (for the amended claim): mint to account 1, transfer to
account 2 — ownership moves and the collections agree. -/
theorem claim3_witness :
    mget 0 sMint10.afc 1 = 1 ∧ mget 0 sXfer12.afc 1 = 2 ∧
    (1, 0) ∉ mget [] sXfer12.cfa 1 ∧ (1, 0) ∈ mget [] sXfer12.cfa 2 := by
  have T := claim3_ownership_round_trip inv_empty
    (show mint demoConfig demoHash emptyState 1 0 = .ok (sMint10, 1) by decide)
    (show transfer demoConfig sMint10 2 1 = .ok sXfer12 by decide)
    (show (2 : AccountId) ≠ 1 by decide)
  refine ⟨T.1, T.2.1, T.2.2.1 0, by decide⟩

/-- Claim C4: `mint` evaluates its checks in the fixed source order — the
duplicate check first, then the per-account ceiling, then the global
ceiling — with the first failing check deciding the error, and a failing
`mint` commits no state change. -/
theorem claim4_mint_check_order (c : Config) (h : Info → CommodityId)
    (s : RegState) (owner : AccountId) (info : Info) :
    (mint c h s owner info = .err .CommodityExists ↔
      mhas s.afc (h info) = true) ∧
    (mint c h s owner info = .err .TooManyCommoditiesForAccount ↔
      (mhas s.afc (h info) = false ∧ c.userLimit ≤ mget 0 s.tfa owner)) ∧
    (mint c h s owner info = .err .TooManyCommodities ↔
      (mhas s.afc (h info) = false ∧ mget 0 s.tfa owner < c.userLimit ∧
        c.commodityLimit ≤ s.total)) ∧
    (∀ e, mint c h s owner info = .err e →
      exec c h s (.mintOp owner info) = s) := by
  refine ⟨?_, ?_, ?_, ?_⟩
  · rw [mint]
    by_cases h1 : mhas s.afc (h info) <;>
      by_cases h2 : mget 0 s.tfa owner < c.userLimit <;>
      by_cases h3 : s.total < c.commodityLimit <;>
      simp [h1, h2, h3]
  · rw [mint]
    by_cases h1 : mhas s.afc (h info) <;>
      by_cases h2 : mget 0 s.tfa owner < c.userLimit <;>
      by_cases h3 : s.total < c.commodityLimit <;>
      simp [h1, h2, h3] <;> omega
  · rw [mint]
    by_cases h1 : mhas s.afc (h info) <;>
      by_cases h2 : mget 0 s.tfa owner < c.userLimit <;>
      by_cases h3 : s.total < c.commodityLimit <;>
      simp [h1, h2, h3] <;> omega
  · intro e he
    simp [exec, he]

/-- Claim C4 witness: re-minting the already-minted payload 0 fails with
`CommodityExists` and commits no state change. -/
theorem claim4_witness :
    mint demoConfig demoHash sMint10 1 0 = .err .CommodityExists ∧
    exec demoConfig demoHash sMint10 (.mintOp 1 0) = sMint10 := by
  have T := claim4_mint_check_order demoConfig demoHash sMint10 1 0
  exact ⟨T.1.mpr (by decide), T.2.2.2 _ (T.1.mpr (by decide))⟩

/-- Claim C5: on a successful `mint`, `total` and the owner's counter are
incremented, the pair `(id, payload)` is inserted into the owner's vector at
its sorted position, the reverse index records the owner, and the returned
identifier is the hash of the payload. -/
theorem claim5_mint_success_postconditions {c : Config}
    {h : Info → CommodityId} {s : RegState} {owner : AccountId} {info : Info}
    {s' : RegState} {cid : CommodityId}
    (hInv : Inv s) (hok : mint c h s owner info = .ok (s', cid)) :
    cid = h info ∧ s'.total = s.total + 1 ∧
    mget 0 s'.tfa owner = mget 0 s.tfa owner + 1 ∧
    mget [] s'.cfa owner = insSorted (mget [] s.cfa owner) (cid, info) ∧
    mget 0 s'.afc cid = owner := by
  obtain ⟨hhas, hcap, htot, hs', hcid⟩ := mint_ok hok
  subst hs'
  refine ⟨hcid, rfl, ?_, ?_, ?_⟩
  · simp only [mintState]
    exact mget_mput_self _ _ _ _
  · simp only [mintState]
    rw [mget_mput_self, hcid]
    exact insertOwned_eq_insSorted _ _ (not_mem_of_mhas_false hInv hhas owner info)
  · simp only [mintState]
    rw [hcid]
    exact mget_mput_self _ _ _ _

/-- Claim C5 witness: minting `(account 1, info 0)` from genesis. -/
theorem claim5_witness :
    (1 : CommodityId) = demoHash 0 ∧ sMint10.total = emptyState.total + 1 ∧
    mget 0 sMint10.tfa 1 = mget 0 emptyState.tfa 1 + 1 ∧
    mget [] sMint10.cfa 1 = insSorted (mget [] emptyState.cfa 1) (1, 0) ∧
    mget 0 sMint10.afc 1 = 1 :=
  claim5_mint_success_postconditions inv_empty
    (show mint demoConfig demoHash emptyState 1 0 = .ok (sMint10, 1) by decide)

/-- Claim C6: after any sequence of operations from the empty registry,
`total` equals the sum of the per-account counters over any finite set of
accounts covering the stored keys (all other accounts hold 0), and each
account's counter equals the length of its collection. -/
theorem claim6_counter_consistency (c : Config) (h : Info → CommodityId)
    (ops : List Op) :
    (∀ A : Finset AccountId,
      (∀ k ∈ (runOps c h ops).tfa.map Prod.fst, k ∈ A) →
      (runOps c h ops).total = ∑ a ∈ A, mget 0 (runOps c h ops).tfa a) ∧
    (∀ a, mget 0 (runOps c h ops).tfa a =
      (mget [] (runOps c h ops).cfa a).length) := by
  have I := inv_runOps c h ops
  exact ⟨fun A hA => I.totalSum.trans (sumVals_eq_sum _ I.tfaKeys A hA), I.counts⟩

/-- Claim C6 witness: one mint from genesis, summed over the account set
`{1}`. -/
theorem claim6_witness :
    (runOps demoConfig demoHash [Op.mintOp 1 0]).total =
      ∑ a ∈ ({1} : Finset AccountId),
        mget 0 (runOps demoConfig demoHash [Op.mintOp 1 0]).tfa a ∧
    mget 0 (runOps demoConfig demoHash [Op.mintOp 1 0]).tfa 1 =
      (mget [] (runOps demoConfig demoHash [Op.mintOp 1 0]).cfa 1).length :=
  ⟨(claim6_counter_consistency demoConfig demoHash [Op.mintOp 1 0]).1 {1}
      (by decide),
    (claim6_counter_consistency demoConfig demoHash [Op.mintOp 1 0]).2 1⟩

/-- Claim C7: burn or transfer of an identifier whose `ownerOf` lookup
yields the null sentinel fails with `NonexistentCommodity` and commits no
state change. -/
theorem claim7_nonexistent_targets (c : Config) (h : Info → CommodityId)
    {s : RegState} {cid : CommodityId} (dest : AccountId)
    (hnull : mget 0 s.afc cid = 0) :
    burn s cid = .err .NonexistentCommodity ∧
    transfer c s dest cid = .err .NonexistentCommodity ∧
    exec c h s (.burnOp cid) = s ∧ exec c h s (.transferOp dest cid) = s := by
  have h1 : burn s cid = .err .NonexistentCommodity := by
    rw [burn, if_pos hnull]
  have h2 : transfer c s dest cid = .err .NonexistentCommodity := by
    rw [transfer, if_pos hnull]
  exact ⟨h1, h2, by simp [exec, h1], by simp [exec, h2]⟩

/-- Claim C7 witness: asset 3 was never minted in the empty registry. -/
theorem claim7_witness :
    burn emptyState 3 = .err .NonexistentCommodity ∧
    transfer demoConfig emptyState 2 3 = .err .NonexistentCommodity ∧
    exec demoConfig demoHash emptyState (.burnOp 3) = emptyState ∧
    exec demoConfig demoHash emptyState (.transferOp 2 3) = emptyState :=
  claim7_nonexistent_targets demoConfig demoHash 2
    (show mget 0 emptyState.afc 3 = 0 by decide)

/-- Claim C8: a completed `transfer` leaves `total` and `burned` unchanged. -/
theorem claim8_transfer_preserves_counters {c : Config} {s : RegState}
    {dest : AccountId} {cid : CommodityId} {s' : RegState}
    (hok : transfer c s dest cid = .ok s') :
    s'.total = s.total ∧ s'.burned = s.burned := by
  obtain ⟨_, _, pos, hb, hs'⟩ := transfer_ok hok
  subst hs'
  exact ⟨rfl, rfl⟩

/-- Claim C8 witness: the concrete transfer of asset 1 to account 2. -/
theorem claim8_witness :
    sXfer12.total = sMint10.total ∧ sXfer12.burned = sMint10.burned :=
  claim8_transfer_preserves_counters
    (show transfer demoConfig sMint10 2 1 = .ok sXfer12 by decide)

/-- Claim C9: minting to the default (null-sentinel) account succeeds when
the usual checks pass, records the sentinel as owner, and afterwards — in
every reachable future state — both `burn` and `transfer` of that asset fail
with `NonexistentCommodity`, so the asset can never be burned or
transferred. -/
theorem claim9_mint_to_default_account {c : Config} {h : Info → CommodityId}
    {s : RegState} {info : Info}
    (hhas : mhas s.afc (h info) = false)
    (hcap : mget 0 s.tfa 0 < c.userLimit) (htot : s.total < c.commodityLimit) :
    mint c h s 0 info = .ok (mintState h s 0 info, h info) ∧
    mget 0 (mintState h s 0 info).afc (h info) = 0 ∧
    (∀ ops : List Op,
      burn (runFrom c h (mintState h s 0 info) ops) (h info) =
        .err .NonexistentCommodity ∧
      ∀ dest, transfer c (runFrom c h (mintState h s 0 info) ops) dest (h info) =
        .err .NonexistentCommodity) := by
  refine ⟨?_, ?_, ?_⟩
  · rw [mint, if_neg (by simp [hhas]), if_pos hcap, if_pos htot]
  · simp only [mintState]
    exact mget_mput_self _ _ _ _
  · intro ops
    have hst : mhas (mintState h s 0 info).afc (h info) = true ∧
        mget 0 (mintState h s 0 info).afc (h info) = 0 := by
      simp only [mintState]
      exact ⟨mhas_mput_self _ _ _, mget_mput_self _ _ _ _⟩
    have hS := @stuck_runFrom c h (mintState h s 0 info) (h info) hst ops
    refine ⟨by rw [burn, if_pos hS.2], fun dest => by rw [transfer, if_pos hS.2]⟩

/-- Claim C9 witness: mint info 0 to account 0 from genesis; the asset
(id 1) is immediately unburnable and untransferable. -/
theorem claim9_witness :
    mint demoConfig demoHash emptyState 0 0 = .ok (sMintDef, 1) ∧
    mget 0 sMintDef.afc 1 = 0 ∧
    burn (runFrom demoConfig demoHash sMintDef []) 1 =
      .err .NonexistentCommodity ∧
    transfer demoConfig (runFrom demoConfig demoHash sMintDef []) 3 1 =
      .err .NonexistentCommodity := by
  have T := claim9_mint_to_default_account
    (show mhas emptyState.afc (demoHash 0) = false by decide)
    (show mget 0 emptyState.tfa 0 < demoConfig.userLimit by decide)
    (show emptyState.total < demoConfig.commodityLimit by decide)
  exact ⟨T.1, T.2.1, (T.2.2 []).1, (T.2.2 []).2 3⟩

/-- Claim C10: for a signed caller other than the default account, the
dispatchable `burn`/`transfer` reject an identifier with no `ownerOf` entry
with `NotCommodityOwner` — the caller-equals-recorded-owner check runs
against the sentinel before the registry's existence check. -/
theorem claim10_owner_check_masks_nonexistence {c : Config} {s : RegState}
    {who : AccountId} {cid : CommodityId} (dest : AccountId)
    (hwho : who ≠ 0) (habsent : mhas s.afc cid = false) :
    dispatchBurn s who cid = .err .NotCommodityOwner ∧
    dispatchTransfer c s who dest cid = .err .NotCommodityOwner := by
  have h0 : mget 0 s.afc cid = 0 := mget_of_mhas_false _ _ habsent
  constructor
  · rw [dispatchBurn, if_neg (fun he => hwho (he.trans h0))]
  · rw [dispatchTransfer, if_neg (fun he => hwho (he.trans h0))]

/-- Claim C10 witness: caller 1, never-minted asset 9, empty registry. -/
theorem claim10_witness :
    dispatchBurn emptyState 1 9 = .err .NotCommodityOwner ∧
    dispatchTransfer demoConfig emptyState 1 2 9 = .err .NotCommodityOwner :=
  claim10_owner_check_masks_nonexistence 2
    (show (1 : AccountId) ≠ 0 by decide)
    (show mhas emptyState.afc 9 = false by decide)

end CommodityPallet
